import Mathlib

/-!
Verification of the multipart HTTP downloader (src/main.go) against its
natural-language specification.  The Go functions relevant to the claims are
shallowly embedded as executable Lean definitions; network and file-system
effects are passed in explicitly as oracle inputs.  Machine integers are
modelled as `Nat`/`Int` (the Go values involved stay far below 2^63, and no
claim exercises overflow).
-/

/- ## Range planner (src/main.go:168-182, `processMultiple`)

The Go loop is

    partLength := contentLength / d.workersCount
    for startRange, index := 0, 0; startRange < contentLength; startRange += partLength + 1 {
        endRange := startRange + partLength
        if endRange > contentLength { endRange = contentLength }
        ...
    }

`planFromFuel` is that loop with an explicit fuel argument to make the
recursion structural (so concrete instances evaluate by `decide`).  Fuel `c`
always suffices: every iteration requires `start < c` and increases `start`
by `partLength + 1 ≥ 1`, so at most `c` iterations happen; the invariant
`c - start ≤ fuel` is preserved, and `planFromFuel_congr` below shows the
result does not depend on the fuel once it is at least `c - start`. -/

def planFromFuel (c p : ℕ) : ℕ → ℕ → List (ℕ × ℕ)
  | _start, 0 => []
  | start, fuel + 1 =>
    if start < c then (start, min (start + p) c) :: planFromFuel c p (start + p + 1) fuel
    else []

/-- The ordered list of inclusive-inclusive ranges planned by `processMultiple`
for content length `c` and worker count `w` (`partLength = c / w`). -/
def planRanges (c w : ℕ) : List (ℕ × ℕ) :=
  planFromFuel c (c / w) 0 c

/-- The planner result is independent of the fuel as soon as the fuel bounds
the remaining distance `c - start`; this justifies using fuel `c`. -/
lemma planFromFuel_congr (c p : ℕ) :
    ∀ f₁ f₂ s, c - s ≤ f₁ → c - s ≤ f₂ → planFromFuel c p s f₁ = planFromFuel c p s f₂ := by
  intro f₁
  induction f₁ with
  | zero =>
    intro f₂ s h₁ h₂
    cases f₂ with
    | zero => rfl
    | succ f₂ =>
      simp only [planFromFuel]
      rw [if_neg]
      omega
  | succ f₁ ih =>
    intro f₂ s h₁ h₂
    cases f₂ with
    | zero =>
      simp only [planFromFuel]
      rw [if_neg]
      omega
    | succ f₂ =>
      simp only [planFromFuel]
      by_cases hs : s < c
      · rw [if_pos hs, if_pos hs, ih f₂ (s + p + 1) (by omega) (by omega)]
      · rw [if_neg hs, if_neg hs]

lemma mem_planFromFuel (c p : ℕ) :
    ∀ fuel s r, r ∈ planFromFuel c p s fuel →
      s ≤ r.1 ∧ r.1 < c ∧ r.2 = min (r.1 + p) c := by
  intro fuel
  induction fuel with
  | zero => intro s r hr; simp [planFromFuel] at hr
  | succ fuel ih =>
    intro s r hr
    simp only [planFromFuel] at hr
    by_cases hs : s < c
    · rw [if_pos hs] at hr
      rcases List.mem_cons.mp hr with h | h
      · subst h; exact ⟨le_refl _, hs, rfl⟩
      · obtain ⟨h₁, h₂, h₃⟩ := ih (s + p + 1) r h
        exact ⟨by omega, h₂, h₃⟩
    · rw [if_neg hs] at hr
      simp at hr

lemma planFromFuel_pairwise_disjoint (c p : ℕ) :
    ∀ fuel s, (planFromFuel c p s fuel).Pairwise (fun r t => r.2 < t.1) := by
  intro fuel
  induction fuel with
  | zero => intro s; simp [planFromFuel]
  | succ fuel ih =>
    intro s
    simp only [planFromFuel]
    by_cases hs : s < c
    · rw [if_pos hs]
      refine List.Pairwise.cons ?_ (ih (s + p + 1))
      intro t ht
      have := mem_planFromFuel c p fuel (s + p + 1) t ht
      have hmin : min (s + p) c ≤ s + p := min_le_left _ _
      omega
    · rw [if_neg hs]; exact List.Pairwise.nil

lemma planFromFuel_cover (c p : ℕ) :
    ∀ fuel s b, c - s ≤ fuel → s ≤ b → b < c →
      ∃ r ∈ planFromFuel c p s fuel, r.1 ≤ b ∧ b ≤ r.2 := by
  intro fuel
  induction fuel with
  | zero => intro s b hf hsb hbc; omega
  | succ fuel ih =>
    intro s b hf hsb hbc
    have hs : s < c := by omega
    simp only [planFromFuel, if_pos hs]
    by_cases hb : b ≤ s + p
    · refine ⟨(s, min (s + p) c), List.mem_cons_self _ _, hsb, ?_⟩
      simp only [le_min_iff]
      omega
    · obtain ⟨r, hr, hr₁, hr₂⟩ := ih (s + p + 1) b (by omega) (by omega) hbc
      exact ⟨r, List.mem_cons_of_mem _ hr, hr₁, hr₂⟩

/-- C4: for every totalLength ≥ 0 and workerCount ≥ 1, the planner's ranges are
pairwise non-overlapping (each range ends strictly before the next one starts),
they collectively cover `[0, totalLength)` with no gaps, and their starts are
strictly increasing. -/
theorem planRanges_partition (c w : ℕ) (hw : 1 ≤ w) :
    (planRanges c w).Pairwise (fun r t => r.2 < t.1) ∧
    (∀ b, b < c → ∃ r ∈ planRanges c w, r.1 ≤ b ∧ b ≤ r.2) ∧
    (planRanges c w).Pairwise (fun r t => r.1 < t.1) := by
  refine ⟨planFromFuel_pairwise_disjoint c (c / w) c 0, ?_, ?_⟩
  · intro b hb
    exact planFromFuel_cover c (c / w) c 0 b (by omega) (Nat.zero_le b) hb
  · refine List.Pairwise.imp_of_mem ?_ (planFromFuel_pairwise_disjoint c (c / w) c 0)
    intro r t hr ht hlt
    obtain ⟨-, hrc, hr2⟩ := mem_planFromFuel c (c / w) c 0 r hr
    have h1 : r.1 ≤ r.2 := by
      rw [hr2]
      exact le_min (Nat.le_add_right _ _) (le_of_lt hrc)
    omega

/-- C4 witness: the partition theorem instantiated at totalLength 10, workers 3. -/
theorem planRanges_partition_witness :
    1 ≤ 3 ∧
    ((planRanges 10 3).Pairwise (fun r t => r.2 < t.1) ∧
     (∀ b, b < 10 → ∃ r ∈ planRanges 10 3, r.1 ≤ b ∧ b ≤ r.2) ∧
     (planRanges 10 3).Pairwise (fun r t => r.1 < t.1)) :=
  ⟨by decide, planRanges_partition 10 3 (by decide)⟩

/-- C10: at totalLength 10 with 3 workers the planner produces the ranges
0-3, 4-7, 8-10, and the final range's inclusive end equals totalLength 10
(one past the resource's last valid byte index 9). -/
theorem planRanges_final_end_eq_totalLength :
    planRanges 10 3 = [(0, 3), (4, 7), (8, 10)] ∧
    (planRanges 10 3).getLast? = some (8, 10) := by decide

/-- C7 counterexample: for totalLength 1822199 and 5 workers the planner
produces 5 ranges, not 6, and the fifth range is 1457760-1822199 rather than
1457760-1821959 followed by a further short segment. -/
theorem planRanges_1822199_5_counterexample :
    (planRanges 1822199 5).length = 5 ∧
    (planRanges 1822199 5).get? 4 = some (1457760, 1822199) := by decide

/-- C7 amended: for totalLength 1822199 and 5 workers the planner produces
exactly the five ranges 0-364439, 364440-728879, 728880-1093319,
1093320-1457759, 1457760-1822199; the fifth range absorbs the remainder and
its inclusive end equals totalLength (there is no sixth segment). -/
theorem planRanges_1822199_5 :
    planRanges 1822199 5 =
      [(0, 364439), (364440, 728879), (728880, 1093319),
       (1093320, 1457759), (1457760, 1822199)] := by decide

/- ## WaitGroup join of `processMultiple` (src/main.go:171-184)

`processMultiple` executes `wg.Add(d.workersCount)` once, then launches one
goroutine per planned range, each of which calls `wg.Done()` exactly once
(`defer wg.Done()` is the first statement of `downloadFileForRange`), and then
blocks in `wg.Wait()`.  `wg.Wait()` returns exactly when the number of `Done`
calls reaches the number added; the number of `Done` calls that can ever occur
is the number of launched goroutines, i.e. the number of planned ranges.  So
(assuming every worker returns) the join completes iff the range count reaches
`workersCount`. -/
def processMultipleJoinCompletes (c w : ℕ) : Prop :=
  w ≤ (planRanges c w).length

/-- C2: at totalLength 3 with 5 workers the planner produces only 3 ranges, so
only 3 `wg.Done` calls ever happen against `wg.Add(5)` and the
`processMultiple` join never completes (the claim says it completes). -/
theorem processMultiple_join_deadlock :
    (planRanges 3 5).length = 3 ∧ ¬ processMultipleJoinCompletes 3 5 := by
  refine ⟨by decide, ?_⟩
  show ¬ (5 ≤ (planRanges 3 5).length)
  decide

/- ## Capability prober (src/main.go:256-278, `getRangeDetails`)

A HEAD outcome is either a transport error (`none`) or a response carrying a
status code and the raw `Content-Length` and `Accept-Ranges` header values
(`Header.Get` returns the empty string for an absent header).  Strings are
modelled as lists of characters. -/
structure HeadResponse where
  statusCode : ℕ
  contentLengthHeader : List Char
  acceptRangesHeader : List Char

/-- Fold step for a run of decimal digits (`strconv.Atoi` accepts only
digits after an optional sign). -/
def digitsStep (acc : Option ℕ) (ch : Char) : Option ℕ :=
  match acc with
  | none => none
  | some n => if '0' ≤ ch ∧ ch ≤ '9' then some (10 * n + (ch.toNat - '0'.toNat)) else none

/-- Decimal digit-run parser: `some n` iff the string is a non-empty run of
digits with value `n`. -/
def parseDigits (s : List Char) : Option ℕ :=
  match s with
  | [] => none
  | _ => s.foldl digitsStep (some 0)

/-- Go `strconv.Atoi`: optional sign followed by a non-empty digit run.
(The int64 range check is not modelled; no claim involves values near 2^63.) -/
def atoi (s : List Char) : Option ℤ :=
  match s with
  | '-' :: rest => (parseDigits rest).map (fun n => -(n : ℤ))
  | '+' :: rest => (parseDigits rest).map (fun n => (n : ℤ))
  | _ => (parseDigits s).map (fun n => (n : ℤ))

/-- Result of `getRangeDetails` as the Go triple
`(rangesSupported, contentLength, err)`; the error is modelled as a `Bool`
(`true` = non-nil error).  NOTE src/main.go:264-266: after a status code other
than 200/206 the function executes `return false, 0, err`, and at that point
`err` is the *nil* error from the successful `client.Head` call, so the third
component is `false` there. -/
def getRangeDetails (resp : Option HeadResponse) : Bool × ℤ × Bool :=
  match resp with
  | none => (false, 0, true)
  | some r =>
    if r.statusCode ≠ 200 ∧ r.statusCode ≠ 206 then (false, 0, false)
    else
      match atoi r.contentLengthHeader with
      | none => (false, 0, true)
      | some n =>
        if r.acceptRangesHeader = "bytes".toList then (true, n, false)
        else (false, n, false)

/-- The path `Download` (src/main.go:119-137) takes after the probe: return
the probe error, or dispatch to `processMultiple` or `processSingle`. -/
inductive DownloadPath where
  | aborted
  | single
  | multiple
deriving DecidableEq

/-- The dispatch performed by `Download`: abort on a probe error, take the
multipart path iff `isMultipartSupported && d.workersCount > 1`, otherwise the
single-stream path. -/
def downloadDispatch (resp : Option HeadResponse) (workersCount : ℤ) : DownloadPath :=
  if (getRangeDetails resp).2.2 = true then DownloadPath.aborted
  else if (getRangeDetails resp).1 = true ∧ 1 < workersCount then DownloadPath.multiple
  else DownloadPath.single

lemma getRangeDetails_supported_no_error (resp : Option HeadResponse)
    (h : (getRangeDetails resp).1 = true) : (getRangeDetails resp).2.2 = false := by
  match resp with
  | none => simp [getRangeDetails] at h
  | some r =>
    simp only [getRangeDetails] at h ⊢
    by_cases hs : r.statusCode ≠ 200 ∧ r.statusCode ≠ 206
    · rw [if_pos hs] at h; simp at h
    · rw [if_neg hs] at h ⊢
      rcases hcl : atoi r.contentLengthHeader with _ | n
      · rw [hcl] at h; simp at h
      · rw [hcl] at h
        dsimp only at h ⊢
        by_cases hb : r.acceptRangesHeader = "bytes".toList
        · rw [if_pos hb]
        · rw [if_neg hb] at h; simp at h

/-- C8: `Download` takes the multipart path iff the probe reported range
support and the configured worker count exceeds 1; whenever the probe returned
no error and the multipart path is not taken, the single-stream path is. -/
theorem downloadDispatch_multipart_iff (resp : Option HeadResponse) (w : ℤ) :
    (downloadDispatch resp w = DownloadPath.multiple ↔
       (getRangeDetails resp).1 = true ∧ 1 < w) ∧
    ((getRangeDetails resp).2.2 = false →
       downloadDispatch resp w ≠ DownloadPath.multiple →
       downloadDispatch resp w = DownloadPath.single) := by
  constructor
  · constructor
    · intro h
      unfold downloadDispatch at h
      by_cases he : (getRangeDetails resp).2.2 = true
      · rw [if_pos he] at h; exact absurd h (by simp)
      · rw [if_neg he] at h
        by_cases hc : (getRangeDetails resp).1 = true ∧ 1 < w
        · exact hc
        · rw [if_neg hc] at h; exact absurd h (by simp)
    · intro hc
      have he : (getRangeDetails resp).2.2 = false :=
        getRangeDetails_supported_no_error resp hc.1
      unfold downloadDispatch
      rw [if_neg (by simp [he]), if_pos hc]
  · intro he hm
    unfold downloadDispatch at hm ⊢
    rw [if_neg (by simp [he])] at hm ⊢
    by_cases hc : (getRangeDetails resp).1 = true ∧ 1 < w
    · rw [if_pos hc] at hm; exact absurd rfl hm
    · rw [if_neg hc]

/-- A HEAD response with status 200, a parsable length, and no range support. -/
def headOkNoRanges : HeadResponse :=
  ⟨200, "10".toList, "none".toList⟩

/-- C8 witness: with a 200 HEAD response lacking `Accept-Ranges: bytes` and 5
workers, `Download` takes the single-stream path. -/
theorem downloadDispatch_multipart_iff_witness :
    downloadDispatch (some headOkNoRanges) 5 = DownloadPath.single :=
  (downloadDispatch_multipart_iff (some headOkNoRanges) 5).2 (by decide) (by decide)

/-- C1: on a HEAD response with status 404 (neither 200 nor 206)
`getRangeDetails` returns `(false, 0, nil error)` — no error despite the bad
status — and `Download` consequently proceeds to `processSingle`, issuing a
GET, instead of aborting. -/
theorem getRangeDetails_status404_no_error :
    getRangeDetails (some ⟨404, "10".toList, "bytes".toList⟩) = (false, 0, false) ∧
    downloadDispatch (some ⟨404, "10".toList, "bytes".toList⟩) 5 = DownloadPath.single := by
  decide

/- ## Fetch workers (src/main.go:144-166 `processSingle`,
     src/main.go:193-213 `downloadFileForRange`)

A GET outcome is either a transport error from `client.Do` (`none` — in that
case the Go `response` pointer is nil) or a response with a status code and
the byte sequence delivered by reading the body (on a mid-read error this is
the partial prefix; body bytes are modelled as naturals).  Neither function
ever inspects `statusCode`: the body of a non-success response is copied into
the chunk buffer like any other. -/
structure GetResponse where
  statusCode : ℕ
  body : List ℕ
deriving DecidableEq

/-- Outcome of one ranged worker. -/
inductive WorkerOutcome where
  | panicked
  | returned (buf : List ℕ)
deriving DecidableEq

/-- Go `downloadFileForRange`: on a `http.NewRequest` error the worker returns
early (buffer untouched, i.e. empty); on a `client.Do` transport error the
code prints the error but then evaluates `response.Body` with `response` nil
at `defer response.Body.Close()` (src/main.go:207), a nil-pointer
dereference, i.e. a runtime panic; otherwise the body is copied into the
chunk buffer and the worker returns. -/
def downloadFileForRange (requestOk : Bool) (resp : Option GetResponse) : WorkerOutcome :=
  if requestOk = false then WorkerOutcome.returned []
  else
    match resp with
    | none => WorkerOutcome.panicked
    | some r => WorkerOutcome.returned r.body

/-- Outcome of `processSingle` up to the combine step. -/
inductive SingleOutcome where
  | errored
  | panicked
  | proceedToCombine (buf : List ℕ)
deriving DecidableEq

/-- Go `processSingle`: a `http.NewRequest` error is returned (aborting the job);
a `client.Do` transport error is printed and then `defer response.Body.Close()`
(src/main.go:156) dereferences the nil `response` — a runtime panic; otherwise
the body is copied into chunk 0 and the job proceeds to `combineChunks`
(a mid-read `io.Copy` error is printed and also proceeds, with the partial
prefix as the buffer). -/
def processSingleFetch (requestOk : Bool) (resp : Option GetResponse) : SingleOutcome :=
  if requestOk = false then SingleOutcome.errored
  else
    match resp with
    | none => SingleOutcome.panicked
    | some r => SingleOutcome.proceedToCombine r.body

/-- C3: on a transport error from `client.Do` (nil response) both the ranged
worker and the single-stream fetch dereference the nil response and panic,
crashing the program, instead of logging and returning with an empty buffer;
a non-success status, by contrast, is not even inspected and its body is
copied while the job proceeds. -/
theorem fetch_transport_error_panics :
    downloadFileForRange true none = WorkerOutcome.panicked ∧
    processSingleFetch true none = SingleOutcome.panicked ∧
    downloadFileForRange true (some ⟨500, [1, 2]⟩) = WorkerOutcome.returned [1, 2] ∧
    processSingleFetch true (some ⟨500, [1, 2]⟩) = SingleOutcome.proceedToCombine [1, 2] := by
  decide

/- ## IEEE-754 binary32 model

The progress loop (src/main.go:243-249) computes
`int((float32(chunk.Len()) / float32(totalLen)) * 100)` per chunk.  All
values arising there are non-negative, so `float32` is modelled by the exact
non-negative dyadic rationals `m ⋅ 2^(e-23)` with a canonical 24-bit
significand (`m = 0`, or `2^23 ≤ m < 2^24`); conversion from an integer and
each arithmetic operation produce the correctly rounded (round-to-nearest,
ties-to-even) representable value of their exact rational result, which is
binary32 semantics.  Overflow to infinity (beyond 2^128) and subnormals
(below 2^-126) are outside the modelled range; with a positive `totalLen`
and `int`-sized chunk lengths every intermediate value of the progress
computation stays inside it.  Division by zero (Go: +Inf, and an
implementation-defined `int` conversion) is likewise outside the model, so
the theorems below assume `0 < totalLen`. -/

/-- Floor logarithm base 2 with explicit fuel (fuel `n` suffices since the
argument at least halves each step). -/
def log2fuel : ℕ → ℕ → ℕ
  | 0, _ => 0
  | fuel + 1, n => if 2 ≤ n then log2fuel fuel (n / 2) + 1 else 0

/-- Greatest `k` with `2 ^ k ≤ n`, for `n ≥ 1`. -/
def natLog2 (n : ℕ) : ℕ := log2fuel n n

/-- Ceiling logarithm base 2 with explicit fuel. -/
def clog2fuel : ℕ → ℕ → ℕ
  | 0, _ => 0
  | fuel + 1, n => if 2 ≤ n then clog2fuel fuel ((n + 1) / 2) + 1 else 0

/-- Least `k` with `n ≤ 2 ^ k`, for `n ≥ 1`. -/
def natClog2 (n : ℕ) : ℕ := clog2fuel n n

/-- A non-negative binary32 value `m ⋅ 2^(e-23)`, canonically `m = 0, e = 0`
or `2^23 ≤ m < 2^24` (so the value lies in `[2^e, 2^(e+1))`). -/
structure F32 where
  m : ℕ
  e : ℤ
deriving DecidableEq

/-- Round `a / b` (with `b ≥ 1`) to the nearest natural, ties to even. -/
def roundDivHalfEven (a b : ℕ) : ℕ :=
  if 2 * (a % b) < b then a / b
  else if b < 2 * (a % b) then a / b + 1
  else if a / b % 2 = 0 then a / b else a / b + 1

/-- Greatest `e : ℤ` with `2 ^ e ≤ num / den`, for `num, den ≥ 1`. -/
def ratExp2 (num den : ℕ) : ℤ :=
  if den ≤ num then (natLog2 (num / den) : ℤ)
  else -(natClog2 ((den + num - 1) / num) : ℤ)

/-- Round the exact non-negative rational `num / den` (with `den ≥ 1`) to the
nearest binary32 value. -/
def roundRat (num den : ℕ) : F32 :=
  if num = 0 then ⟨0, 0⟩
  else
    let e := ratExp2 num den
    let n :=
      if 23 ≤ e then roundDivHalfEven num (den * 2 ^ (e - 23).toNat)
      else roundDivHalfEven (num * 2 ^ (23 - e).toNat) den
    if n = 2 ^ 24 then ⟨2 ^ 23, e + 1⟩ else ⟨n, e⟩

/-- Go conversion `float32(n)` of a non-negative integer. -/
def F32.ofNat (n : ℕ) : F32 := roundRat n 1

/-- Binary32 division `x / y` (for `y ≠ 0`; division by zero, Go +Inf, is
outside the model and guarded by the theorems' hypotheses). -/
def F32.div (x y : F32) : F32 :=
  if y.m = 0 then ⟨0, 0⟩
  else if x.m = 0 then ⟨0, 0⟩
  else if y.e ≤ x.e then roundRat (x.m * 2 ^ (x.e - y.e).toNat) y.m
  else roundRat x.m (y.m * 2 ^ (y.e - x.e).toNat)

/-- Binary32 multiplication `x * y`. -/
def F32.mul (x y : F32) : F32 :=
  if x.m = 0 ∨ y.m = 0 then ⟨0, 0⟩
  else
    let k : ℤ := x.e + y.e - 46
    if 0 ≤ k then roundRat (x.m * y.m * 2 ^ k.toNat) 1
    else roundRat (x.m * y.m) (2 ^ (-k).toNat)

/-- Go conversion `int(x)` of a non-negative float: truncation toward zero,
i.e. the floor. -/
def F32.truncToNat (x : F32) : ℕ :=
  if 23 ≤ x.e then x.m * 2 ^ (x.e - 23).toNat
  else x.m / 2 ^ (23 - x.e).toNat

/- ## Progress sampler computation (src/main.go:237-254, `progress`)

One tick of the loop body: per chunk,
`totalDownloaded += int((float32(chunk.Len()) / float32(totalLen)) * 100)`,
then clamp to 100 (`100` is the exactly representable float32 constant). -/

/-- One chunk's contribution
`int((float32(chunk.Len()) / float32(totalLen)) * 100)`. -/
def progressTerm (totalLen l : ℕ) : ℕ :=
  F32.truncToNat (F32.mul (F32.div (F32.ofNat l) (F32.ofNat totalLen)) (F32.ofNat 100))

/-- The value sent on the progress channel at one sampling tick, given the
current chunk buffer lengths and the probed total length. -/
def progressSample (chunkLens : List ℕ) (totalLen : ℕ) : ℤ :=
  let totalDownloaded :=
    chunkLens.foldl (fun acc l => acc + (progressTerm totalLen l : ℤ)) 0
  if totalDownloaded > 100 then 100 else totalDownloaded

lemma log2fuel_spec :
    ∀ fuel n, 1 ≤ n → n ≤ fuel → 2 ^ log2fuel fuel n ≤ n ∧ n < 2 ^ (log2fuel fuel n + 1) := by
  intro fuel
  induction fuel with
  | zero => intro n h1 h2; omega
  | succ fuel ih =>
    intro n h1 h2
    by_cases h2n : 2 ≤ n
    · obtain ⟨ha, hb⟩ := ih (n / 2) (by omega) (by omega)
      simp only [log2fuel, if_pos h2n]
      have e1 : (2 : ℕ) ^ (log2fuel fuel (n / 2) + 1) = 2 ^ log2fuel fuel (n / 2) * 2 :=
        pow_succ 2 _
      have e2 : (2 : ℕ) ^ (log2fuel fuel (n / 2) + 1 + 1) = 2 ^ (log2fuel fuel (n / 2) + 1) * 2 :=
        pow_succ 2 _
      omega
    · have hn : n = 1 := by omega
      subst hn
      simp [log2fuel]

lemma natLog2_le {n : ℕ} (h : 1 ≤ n) : 2 ^ natLog2 n ≤ n :=
  (log2fuel_spec n n h le_rfl).1

lemma le_roundDivHalfEven (a b : ℕ) : a / b ≤ roundDivHalfEven a b := by
  unfold roundDivHalfEven
  split_ifs <;> omega

lemma roundRat_m_pos {num den : ℕ} (hden : 1 ≤ den) (hle : den ≤ num) :
    1 ≤ (roundRat num den).m := by
  have hq : 1 ≤ num / den := (Nat.one_le_div_iff (by omega)).mpr hle
  unfold roundRat
  rw [if_neg (by omega)]
  dsimp only
  have he : ratExp2 num den = (natLog2 (num / den) : ℤ) := by
    unfold ratExp2
    rw [if_pos hle]
  rw [he]
  by_cases hc : (23 : ℤ) ≤ (natLog2 (num / den) : ℤ)
  · rw [if_pos hc]
    have hstep : den * 2 ^ ((natLog2 (num / den) : ℤ) - 23).toNat ≤ num := by
      have hexp : ((natLog2 (num / den) : ℤ) - 23).toNat ≤ natLog2 (num / den) := by omega
      have h1 : (2 : ℕ) ^ ((natLog2 (num / den) : ℤ) - 23).toNat ≤ 2 ^ natLog2 (num / den) :=
        Nat.pow_le_pow_right (by norm_num) hexp
      have h2 : 2 ^ natLog2 (num / den) ≤ num / den := natLog2_le hq
      calc den * 2 ^ ((natLog2 (num / den) : ℤ) - 23).toNat
          ≤ den * (num / den) := Nat.mul_le_mul_left den (le_trans h1 h2)
        _ = num / den * den := Nat.mul_comm _ _
        _ ≤ num := Nat.div_mul_le_self _ _
    have hdiv : 1 ≤ num / (den * 2 ^ ((natLog2 (num / den) : ℤ) - 23).toNat) :=
      (Nat.one_le_div_iff (by positivity)).mpr hstep
    have hround := le_trans hdiv (le_roundDivHalfEven _ _)
    split
    · exact le_trans (by norm_num) (le_refl (2 ^ 23))
    · exact hround
  · rw [if_neg hc]
    have hdiv : 1 ≤ num * 2 ^ ((23 : ℤ) - (natLog2 (num / den) : ℤ)).toNat / den := by
      refine (Nat.one_le_div_iff (by omega)).mpr ?_
      calc den ≤ num := hle
        _ ≤ num * 2 ^ ((23 : ℤ) - (natLog2 (num / den) : ℤ)).toNat :=
          Nat.le_mul_of_pos_right _ (by positivity)
    have hround := le_trans hdiv (le_roundDivHalfEven _ _)
    split
    · exact le_trans (by norm_num) (le_refl (2 ^ 23))
    · exact hround

lemma ofNat_m_pos {n : ℕ} (h : 1 ≤ n) : 1 ≤ (F32.ofNat n).m :=
  roundRat_m_pos le_rfl h

lemma roundRat_self {m : ℕ} (hm : m ≠ 0) : roundRat m m = ⟨2 ^ 23, 0⟩ := by
  have hpos : 0 < m := Nat.pos_of_ne_zero hm
  unfold roundRat
  rw [if_neg hm]
  dsimp only
  have he : ratExp2 m m = 0 := by
    unfold ratExp2
    rw [if_pos le_rfl, Nat.div_self hpos]
    rfl
  rw [he]
  rw [if_neg (show ¬((23 : ℤ) ≤ 0) by norm_num)]
  have h23 : ((23 : ℤ) - 0).toNat = 23 := by decide
  rw [h23]
  have hround : roundDivHalfEven (m * 2 ^ 23) m = 2 ^ 23 := by
    have hq : m * 2 ^ 23 / m = 2 ^ 23 := Nat.mul_div_cancel_left _ hpos
    have hr : m * 2 ^ 23 % m = 0 := Nat.mul_mod_right _ _
    unfold roundDivHalfEven
    rw [hq, hr]
    rw [if_pos (by omega)]
  rw [hround]
  rw [if_neg (by norm_num)]

lemma F32_div_self {x : F32} (hx : x.m ≠ 0) : F32.div x x = ⟨2 ^ 23, 0⟩ := by
  unfold F32.div
  rw [if_neg hx, if_neg hx, if_pos le_rfl]
  have h0 : (x.e - x.e).toNat = 0 := by omega
  rw [h0, pow_zero, mul_one]
  exact roundRat_self hx

lemma progressTerm_full {t : ℕ} (ht : 0 < t) : progressTerm t t = 100 := by
  unfold progressTerm
  rw [F32_div_self (by have := ofNat_m_pos ht; omega)]
  decide

lemma progress_foldl_nonneg (total : ℕ) :
    ∀ (lens : List ℕ) (acc : ℤ), 0 ≤ acc →
      0 ≤ lens.foldl (fun acc l => acc + (progressTerm total l : ℤ)) acc := by
  intro lens
  induction lens with
  | nil => intro acc h; exact h
  | cons l rest ih =>
    intro acc h
    exact ih _ (add_nonneg h (Int.natCast_nonneg _))

/-- C5 counterexample: with 8 fully populated 1-byte chunks and totalLength 8,
the emitted sample is 96 (per-chunk float32 truncation: each chunk contributes
`int(12.5) = 12`), while the claimed formula `min(100, Σ len ⋅ 100 / total)`
gives 100 — so the claimed formula is wrong and a fully populated buffer set
does not compute 100. -/
theorem progressSample_counterexample :
    progressSample [1, 1, 1, 1, 1, 1, 1, 1] 8 = 96 ∧
    (96 : ℤ) ≠ min 100 ((1 + 1 + 1 + 1 + 1 + 1 + 1 + 1) * 100 / 8) := by decide

/-- C5 amended: every emitted sample is the clamp of the sum of per-chunk
truncated float32 percentages `int(float32(len_i)/float32(total) * 100)`
(not of `Σ len_i ⋅ 100 / total`); for positive totalLength each sample is an
integer in [0, 100], and a single chunk populated to totalLength computes
exactly 100, but a fully populated multi-chunk buffer set may compute less
than 100. -/
theorem progressSample_amended (lens : List ℕ) (total : ℕ) (ht : 0 < total) :
    0 ≤ progressSample lens total ∧ progressSample lens total ≤ 100 ∧
    progressSample [total] total = 100 := by
  refine ⟨?_, ?_, ?_⟩
  · unfold progressSample
    dsimp only
    split
    · norm_num
    · exact progress_foldl_nonneg total lens 0 le_rfl
  · unfold progressSample
    dsimp only
    split
    · norm_num
    · omega
  · unfold progressSample
    dsimp only [List.foldl]
    rw [progressTerm_full ht]
    norm_num

/-- C5 witness: the amended statement instantiated at one half-filled chunk
with totalLength 2 (the sample there is 50). -/
theorem progressSample_amended_witness :
    0 < 2 ∧
    (0 ≤ progressSample [1] 2 ∧ progressSample [1] 2 ≤ 100 ∧
     progressSample [2] 2 = 100) :=
  ⟨by decide, progressSample_amended [1] 2 (by decide)⟩

/- ## Progress stream lifecycle (src/main.go:237-254 `progress`,
     src/main.go:119-142 `Download`, `ConsumeProgress`)

The sampler loop, per iteration, observes whether the `Download`-scoped
context has been cancelled (`Download` defers `cancel()`, so cancellation
fires on both its normal and error return paths) and the current chunk
lengths; on cancellation it returns, otherwise it sends one sample and
sleeps.  A run is modelled by the finite schedule of per-iteration
observations; the output is the sequence of channel operations performed and
whether the loop returned within the schedule.  `close` is a possible channel
event, but no statement of the source ever performs it: `progressChan` is
only made (src/main.go:103), sent on (src/main.go:250) and received from
(src/main.go:140, 79). -/
inductive ChanEvent where
  | send (v : ℤ)
  | close
deriving DecidableEq

/-- Channel events performed by the `progress` goroutine over a finite
schedule of (cancelled?, chunk lengths) observations, and whether it
returned. -/
def progressRun (totalLen : ℕ) : List (Bool × List ℕ) → List ChanEvent × Bool
  | [] => ([], false)
  | (true, _) :: _ => ([], true)
  | (false, lens) :: rest =>
    (ChanEvent.send (progressSample lens totalLen) :: (progressRun totalLen rest).1,
     (progressRun totalLen rest).2)

/-- C6 counterexample: a download that finishes after one sample (cancellation
observed at the second tick) makes the sampler return, but the event trace
`[send 100]` contains no `close`: the progress channel is not closed and a
`for range` receive loop on it does not end. -/
theorem progressRun_counterexample :
    progressRun 8 [(false, [8]), (true, [8])] = ([ChanEvent.send 100], true) ∧
    ChanEvent.close ∉ (progressRun 8 [(false, [8]), (true, [8])]).1 := by decide

/-- C6 amended: the progress channel is never closed — no schedule makes the
sampler emit a `close` event; on cancellation (download finished or failed)
the sampler merely stops looping and returns, leaving the channel open, so
the consumer's receive loop never terminates by stream end. -/
theorem progressRun_never_closes (totalLen : ℕ) (sched : List (Bool × List ℕ)) :
    ChanEvent.close ∉ (progressRun totalLen sched).1 ∧
    ((∃ t ∈ sched, t.1 = true) → (progressRun totalLen sched).2 = true) := by
  induction sched with
  | nil =>
    refine ⟨by simp [progressRun], ?_⟩
    intro h
    simp at h
  | cons hd rest ih =>
    obtain ⟨c, lens⟩ := hd
    cases c with
    | true => exact ⟨by simp [progressRun], fun _ => by simp [progressRun]⟩
    | false =>
      refine ⟨?_, ?_⟩
      · simp only [progressRun]
        intro hmem
        rcases List.mem_cons.mp hmem with h | h
        · exact ChanEvent.noConfusion h
        · exact ih.1 h
      · intro hex
        simp only [progressRun]
        apply ih.2
        rcases hex with ⟨t, hmem, ht⟩
        rcases List.mem_cons.mp hmem with h | h
        · subst h; simp at ht
        · exact ⟨t, h, ht⟩

/-- C6 witness: the never-closes statement at a concrete cancelled schedule. -/
theorem progressRun_never_closes_witness :
    ChanEvent.close ∉ (progressRun 1 [(true, [])]).1 ∧
    (progressRun 1 [(true, [])]).2 = true :=
  ⟨(progressRun_never_closes 1 [(true, [])]).1,
   (progressRun_never_closes 1 [(true, [])]).2 ⟨(true, []), by simp⟩⟩

/- ## Path derivation (src/main.go:216-221)

`filePath = path.Join(currentDir, "/", filepath.Base(url))`.  Paths and URLs
are modelled as lists of characters.  `filepathBase` is Go's `filepath.Base`
on a Unix separator (empty path → "."; strip trailing slashes; all-slash
path → "/"; otherwise the part after the last slash).  `pathClean` is Go's
`path.Clean`, in its documented component form: split on '/', drop empty
and "." components, resolve ".." against a stack (".." at the root is
dropped, ".." of an unrooted path accumulates), re-join, '/'-prefix rooted
results, and return "." for an empty unrooted result.  `goPathJoin` is
`path.Join`: the non-empty elements joined by '/' and cleaned (Go inserts a
'/' before every element once the buffer is non-empty; the extra empty
segments that produces are erased by `Clean`, so filtering them first is
equivalent). -/

def dropTrailingSlashes (l : List Char) : List Char :=
  (l.reverse.dropWhile (fun c => c = '/')).reverse

def lastComponent (l : List Char) : List Char :=
  (l.reverse.takeWhile (fun c => c ≠ '/')).reverse

/-- Go `filepath.Base` (Unix rules, no volume names). -/
def filepathBase (s : List Char) : List Char :=
  if s = [] then ['.']
  else
    let t := dropTrailingSlashes s
    if t = [] then ['/'] else lastComponent t

/-- Split a character list on '/' (keeping empty segments). -/
def splitSlash : List Char → List (List Char)
  | [] => [[]]
  | c :: rest =>
    if c = '/' then [] :: splitSlash rest
    else
      match splitSlash rest with
      | [] => [[c]]
      | h :: t => (c :: h) :: t

/-- One step of `path.Clean`'s component processing over an output stack. -/
def cleanFold (rooted : Bool) (stack : List (List Char)) (comp : List Char) :
    List (List Char) :=
  if comp = [] ∨ comp = ['.'] then stack
  else if comp = ['.', '.'] then
    match stack with
    | top :: rest => if top ≠ ['.', '.'] then rest else comp :: stack
    | [] => if rooted then [] else [comp]
  else comp :: stack

/-- Go `path.Clean`. -/
def pathClean (s : List Char) : List Char :=
  if s = [] then ['.']
  else
    let rooted : Bool :=
      match s with
      | '/' :: _ => true
      | _ => false
    let stack := (splitSlash s).foldl (cleanFold rooted) []
    let body := List.intercalate ['/'] stack.reverse
    if rooted then '/' :: body
    else if body = [] then ['.'] else body

/-- Go `path.Join` of a list of elements. -/
def goPathJoin (elems : List (List Char)) : List Char :=
  let ne := elems.filter (fun e => e ≠ [])
  if ne = [] then [] else pathClean (List.intercalate ['/'] ne)

/-- The destination path computed by `combineChunks`:
`path.Join(currentDir, "/", filepath.Base(url))`. -/
def combinePath (cwd url : List Char) : List Char :=
  goPathJoin [cwd, ['/'], filepathBase url]

/- ## Chunk combiner (src/main.go:215-235, `combineChunks`)

File-system effects are explicit: the oracle holds the `os.Getwd` result and
whether `os.Create` and each chunk's `WriteTo` succeed.  The function returns
the list of file-system operations it performed (in order) and the Go result
(`some path` on success, `none` when an error is returned).  A failed
`os.Create` performs no write (no file is produced by the model; whether a
partial file exists is irrelevant to the claims); a failed `WriteTo` stops
the loop immediately (the bytes of the failed write are not recorded).
`runFs` replays the operation list: `create` truncates to an empty file,
`write` appends, `remove` would delete — no `remove` is ever emitted, which
is the model's rendering of "partial output files are not cleaned up". -/

/-- A file-system operation performed by `combineChunks`. -/
inductive FsOp where
  | create (path : List Char)
  | write (data : List ℕ)
  | remove (path : List Char)
deriving DecidableEq

/-- Oracle for the file-system outcomes `combineChunks` depends on. -/
structure FsOracle where
  getwd : Option (List Char)
  createOk : Bool
  writeOk : ℕ → Bool

/-- The write loop of src/main.go:228-232: chunks written in index order,
stopping at the first failure. -/
def writeLoop (o : FsOracle) : List (List ℕ) → ℕ → List FsOp × Bool
  | [], _ => ([], true)
  | c :: rest, i =>
    if o.writeOk i then
      (FsOp.write c :: (writeLoop o rest (i + 1)).1, (writeLoop o rest (i + 1)).2)
    else ([], false)

/-- Go `combineChunks`: derive the destination path, create (truncate) the file,
write the chunk buffers in index order, return the path; surface any error
without any cleanup operation. -/
def combineChunks (o : FsOracle) (chunks : List (List ℕ)) (url : List Char) :
    List FsOp × Option (List Char) :=
  match o.getwd with
  | none => ([], none)
  | some dir =>
    if o.createOk = false then ([], none)
    else
      let filePath := combinePath dir url
      (FsOp.create filePath :: (writeLoop o chunks 0).1,
       if (writeLoop o chunks 0).2 then some filePath else none)

/-- Replay a list of file-system operations against the (contents of the)
destination file: `none` = no file. -/
def runFs : List FsOp → Option (List ℕ) → Option (List ℕ)
  | [], st => st
  | FsOp.create _ :: rest, _ => runFs rest (some [])
  | FsOp.write d :: rest, st => runFs rest (st.map (fun c => c ++ d))
  | FsOp.remove _ :: rest, _ => runFs rest none

lemma writeLoop_all_ok {o : FsOracle} (hok : ∀ i, o.writeOk i = true) :
    ∀ (chunks : List (List ℕ)) (i : ℕ),
      writeLoop o chunks i = (chunks.map FsOp.write, true) := by
  intro chunks
  induction chunks with
  | nil => intro i; rfl
  | cons c rest ih =>
    intro i
    simp [writeLoop, hok i, ih]

lemma writeLoop_no_remove (o : FsOracle) :
    ∀ (chunks : List (List ℕ)) (i : ℕ) (p : List Char),
      FsOp.remove p ∉ (writeLoop o chunks i).1 := by
  intro chunks
  induction chunks with
  | nil => intro i p; simp [writeLoop]
  | cons c rest ih =>
    intro i p
    by_cases h : o.writeOk i = true
    · simp only [writeLoop, h, if_true]
      intro hmem
      rcases List.mem_cons.mp hmem with h' | h'
      · exact FsOp.noConfusion h'
      · exact ih (i + 1) p h'
    · simp [writeLoop, h]

lemma writeLoop_flag_false {o : FsOracle} :
    ∀ (chunks : List (List ℕ)) (i j : ℕ), j < chunks.length →
      o.writeOk (i + j) = false → (writeLoop o chunks i).2 = false := by
  intro chunks
  induction chunks with
  | nil => intro i j hj _; simp at hj
  | cons c rest ih =>
    intro i j hj hfail
    by_cases h : o.writeOk i = true
    · simp only [writeLoop, h, if_true]
      cases j with
      | zero => rw [Nat.add_zero] at hfail; rw [hfail] at h; exact Bool.noConfusion h
      | succ j' =>
        refine ih (i + 1) j' (by simp at hj; omega) ?_
        have : i + 1 + j' = i + (j' + 1) := by omega
        rw [this]
        exact hfail
    · simp [writeLoop, h]

lemma runFs_writes :
    ∀ (chunks : List (List ℕ)) (acc : List ℕ),
      runFs (chunks.map FsOp.write) (some acc) = some (acc ++ chunks.flatten) := by
  intro chunks
  induction chunks with
  | nil => intro acc; simp [runFs]
  | cons c rest ih =>
    intro acc
    simp [runFs, ih, List.append_assoc]

/-- C9: with the working directory `dir`, (a) when create and every write
succeed, `combineChunks` performs exactly a create (i.e. truncate) of the
path `path.Join(dir, "/", filepath.Base(url))` followed by one write per
chunk buffer in index order, returns that path, and replaying the operations
yields a file whose content is the in-order concatenation of the buffers;
(b) when create or any write fails, it returns an error; and (c) in every
case it performs no remove — a partial file is never cleaned up. -/
theorem combineChunks_spec (o : FsOracle) (chunks : List (List ℕ)) (url dir : List Char)
    (hw : o.getwd = some dir) :
    (o.createOk = true → (∀ i, o.writeOk i = true) →
       combineChunks o chunks url =
         (FsOp.create (combinePath dir url) :: chunks.map FsOp.write,
          some (combinePath dir url)) ∧
       runFs (combineChunks o chunks url).1 none = some chunks.flatten) ∧
    ((o.createOk = false ∨ ∃ j < chunks.length, o.writeOk j = false) →
       (combineChunks o chunks url).2 = none) ∧
    (∀ p, FsOp.remove p ∉ (combineChunks o chunks url).1) := by
  refine ⟨?_, ?_, ?_⟩
  · intro hc hok
    have heq : combineChunks o chunks url =
        (FsOp.create (combinePath dir url) :: chunks.map FsOp.write,
         some (combinePath dir url)) := by
      unfold combineChunks
      rw [hw]
      dsimp only
      rw [if_neg (by rw [hc]; exact Bool.noConfusion)]
      rw [writeLoop_all_ok hok chunks 0]
      simp
    refine ⟨heq, ?_⟩
    rw [heq]
    show runFs (FsOp.create (combinePath dir url) :: chunks.map FsOp.write) none =
      some chunks.flatten
    unfold runFs
    rw [runFs_writes chunks []]
    rw [List.nil_append]
  · intro herr
    unfold combineChunks
    rw [hw]
    dsimp only
    rcases herr with hc | ⟨j, hj, hfail⟩
    · rw [if_pos hc]
    · by_cases hc : o.createOk = false
      · rw [if_pos hc]
      · rw [if_neg hc]
        dsimp only
        rw [writeLoop_flag_false chunks 0 j hj (by rw [Nat.zero_add]; exact hfail)]
        rfl
  · intro p
    unfold combineChunks
    rw [hw]
    dsimp only
    by_cases hc : o.createOk = false
    · rw [if_pos hc]
      simp
    · rw [if_neg hc]
      dsimp only
      intro hmem
      rcases List.mem_cons.mp hmem with h | h
      · exact FsOp.noConfusion h
      · exact writeLoop_no_remove o chunks 0 p h

/-- An oracle where `os.Getwd` answers `/tmp` and every operation succeeds. -/
def combineOracle : FsOracle :=
  ⟨some "/tmp".toList, true, fun _ => true⟩

/-- C9 witness: for url `http://x/f.bin` in working directory `/tmp` with
chunks `[1,2]` and `[3]`, the operations are create `/tmp/f.bin` then the
two writes in order, the returned path is `/tmp/f.bin`, and the replayed
file content is `[1,2,3]`. -/
theorem combineChunks_spec_witness :
    combineChunks combineOracle [[1, 2], [3]] ("http://x/f.bin".toList) =
      (FsOp.create ("/tmp/f.bin".toList) ::
        [FsOp.write [1, 2], FsOp.write [3]],
       some ("/tmp/f.bin".toList)) ∧
    runFs (combineChunks combineOracle [[1, 2], [3]] ("http://x/f.bin".toList)).1 none =
      some [1, 2, 3] := by
  have h := (combineChunks_spec combineOracle [[1, 2], [3]] ("http://x/f.bin".toList)
    ("/tmp".toList) rfl).1 rfl (fun _ => rfl)
  refine ⟨?_, ?_⟩
  · rw [h.1]
    decide
  · rw [h.2]
    rfl
